import Mathlib

/-!
Verification of the tascal arithmetic-expression evaluator (src/index.ts).

The pipeline is embedded shallowly and executably:
* the Lexer becomes a function from the remaining character list to the next
  token (the forward-only position/currentChar cursor is the remaining list);
* the Parser becomes a fuelled mutual recursion (factor / term / expr, with the
  two while loops as explicit tail-recursive loop functions) over a state made
  of the one-token lookahead and the characters the lexer has not yet consumed;
* the Interpreter becomes a structural fold over the AST.

Numbers are modelled as IEEE-754 doubles whose finite values are kept exact as
rationals (JSNum below); the JavaScript value undefined, which the source lets
flow both through the parser (factor falling through returns undefined) and
through the evaluator (visit of an absent node), is modelled by an explicit
AST.undefined node and the JSVal.undefined value.
-/

namespace Tascal

/-- Token kinds, mirroring the TokenType enum of the source. -/
inductive TokenType where
  | INTEGER
  | PLUS
  | MINUS
  | MUL
  | DIVIDE
  | LPAREN
  | RPAREN
  | EOF
deriving DecidableEq, Repr

/-- A token. The source stores the lexeme of operator and parenthesis tokens as
a string payload that no later stage ever reads; the model keeps only the
numeric payload of INTEGER tokens. -/
structure Token where
  type : TokenType
  value : Option ℚ
deriving DecidableEq, Repr

/-- An IEEE-754 double as produced by the interpreter arithmetic; the finite
values are kept exact as rationals (all claim-relevant computations are exact,
and the special values only arise from division). -/
inductive JSNum where
  | fin (q : ℚ)
  | posInf
  | negInf
  | nan
deriving DecidableEq, Repr

/-- JavaScript unary minus on numbers. -/
def JSNum.neg : JSNum → JSNum
  | fin q => fin (-q)
  | posInf => negInf
  | negInf => posInf
  | nan => nan

/-- JavaScript addition on numbers. -/
def JSNum.add : JSNum → JSNum → JSNum
  | nan, _ => nan
  | _, nan => nan
  | fin a, fin b => fin (a + b)
  | fin _, posInf => posInf
  | fin _, negInf => negInf
  | posInf, fin _ => posInf
  | posInf, posInf => posInf
  | posInf, negInf => nan
  | negInf, fin _ => negInf
  | negInf, negInf => negInf
  | negInf, posInf => nan

/-- JavaScript subtraction on numbers. -/
def JSNum.sub : JSNum → JSNum → JSNum
  | nan, _ => nan
  | _, nan => nan
  | fin a, fin b => fin (a - b)
  | fin _, posInf => negInf
  | fin _, negInf => posInf
  | posInf, fin _ => posInf
  | posInf, posInf => nan
  | posInf, negInf => posInf
  | negInf, fin _ => negInf
  | negInf, negInf => nan
  | negInf, posInf => negInf

/-- JavaScript multiplication on numbers. -/
def JSNum.mul : JSNum → JSNum → JSNum
  | nan, _ => nan
  | _, nan => nan
  | fin a, fin b => fin (a * b)
  | fin a, posInf => if a = 0 then nan else if 0 < a then posInf else negInf
  | fin a, negInf => if a = 0 then nan else if 0 < a then negInf else posInf
  | posInf, fin b => if b = 0 then nan else if 0 < b then posInf else negInf
  | negInf, fin b => if b = 0 then nan else if 0 < b then negInf else posInf
  | posInf, posInf => posInf
  | posInf, negInf => negInf
  | negInf, posInf => negInf
  | negInf, negInf => posInf

/-- JavaScript division on numbers: division by zero is not special-cased by
the source, it produces the infinite or not-a-number result of the host
semantics (the sole zero of the model corresponds to +0). -/
def JSNum.div : JSNum → JSNum → JSNum
  | nan, _ => nan
  | _, nan => nan
  | fin a, fin b =>
      if b = 0 then (if a = 0 then nan else if 0 < a then posInf else negInf)
      else fin (a / b)
  | fin _, posInf => fin 0
  | fin _, negInf => fin 0
  | posInf, fin b => if 0 ≤ b then posInf else negInf
  | negInf, fin b => if 0 ≤ b then negInf else posInf
  | posInf, posInf => nan
  | posInf, negInf => nan
  | negInf, posInf => nan
  | negInf, negInf => nan

/-- A value as returned by the visit methods of the Interpreter: a number, or
the JavaScript undefined returned when a visit method falls through. -/
inductive JSVal where
  | num (x : JSNum)
  | undefined
deriving DecidableEq, Repr

/-- The numeric coercion the arithmetic operators apply to their operands:
undefined coerces to NaN, numbers are unchanged. -/
def JSVal.toNum : JSVal → JSNum
  | num x => x
  | undefined => .nan

/-- AST nodes of the source (UnaryOp, BinOp, Num). The undefined constructor models
the TypeScript undefined that factor returns when it falls through all of its
cases, and which can then appear as a child of UnaryOp and BinOp nodes. -/
inductive AST where
  | unaryOp (op : Token) (e : AST)
  | binOp (left : AST) (op : Token) (right : AST)
  | num (value : Option ℚ)
  | undefined
deriving DecidableEq, Repr

/-- The two fatal errors of the source (the spec names them InvalidCharacter
and UnexpectedToken); outOfFuel is an artifact of the fuelled parser model and
is never produced at the generous default fuel. -/
inductive EvalError where
  | invalidCharacter
  | unexpectedToken
  | outOfFuel
deriving DecidableEq, Repr

/-- Numeric value of a digit character. -/
def digitVal (c : Char) : ℕ := c.toNat - 48

/-- The integer method of the Lexer: consume the maximal run of digit
characters and parse it. On a single character, parseFloat accepts exactly the
ASCII digits, and on the collected nonempty run it yields the denoted natural
number. -/
def integerRun (cs : List Char) : ℚ × List Char :=
  (((cs.takeWhile Char.isDigit).foldl (fun acc c => 10 * acc + digitVal c) (0 : ℕ) : ℕ),
    cs.dropWhile Char.isDigit)

/-- The nextToken method of the Lexer, as a function of the characters not yet
consumed: skip spaces, then dispatch on the current character; a character
outside the recognized set is the fatal lexical error. -/
def nextToken (cs : List Char) : Except EvalError (Token × List Char) :=
  match cs.dropWhile (fun c => c == ' ') with
  | [] => .ok (⟨.EOF, none⟩, [])
  | c :: rest =>
    if c.isDigit then
      .ok (⟨.INTEGER, some (integerRun (c :: rest)).1⟩, (integerRun (c :: rest)).2)
    else if c = '(' then .ok (⟨.LPAREN, none⟩, rest)
    else if c = ')' then .ok (⟨.RPAREN, none⟩, rest)
    else if c = '+' then .ok (⟨.PLUS, none⟩, rest)
    else if c = '-' then .ok (⟨.MINUS, none⟩, rest)
    else if c = '*' then .ok (⟨.MUL, none⟩, rest)
    else if c = '/' then .ok (⟨.DIVIDE, none⟩, rest)
    else .error .invalidCharacter

/-- Parser state: the single-token lookahead and the characters the lexer has
not yet consumed. -/
structure ParserState where
  lookahead : Token
  rest : List Char
deriving DecidableEq, Repr

/-- The Parser constructor: prime the lookahead with the first token of the
input. -/
def mkParser (cs : List Char) : Except EvalError ParserState :=
  (nextToken cs).map fun p => ⟨p.1, p.2⟩

/-- The eat method of the Parser: on a matching lookahead kind pull the next
token from the Lexer, otherwise raise the fatal syntax error. -/
def eat (tt : TokenType) (st : ParserState) : Except EvalError ParserState :=
  if st.lookahead.type = tt then mkParser st.rest
  else .error .unexpectedToken

mutual

/-- The factor method of the Parser, fuelled. The final case models the source
falling through all four ifs: it returns undefined without consuming input. -/
def factor : ℕ → ParserState → Except EvalError (AST × ParserState)
  | 0, _ => .error .outOfFuel
  | fuel + 1, st =>
    let token := st.lookahead
    if token.type = .PLUS then do
      let st1 ← eat .PLUS st
      let p ← factor fuel st1
      .ok (.unaryOp token p.1, p.2)
    else if token.type = .MINUS then do
      let st1 ← eat .MINUS st
      let p ← factor fuel st1
      .ok (.unaryOp token p.1, p.2)
    else if token.type = .INTEGER then do
      let st1 ← eat .INTEGER st
      .ok (.num token.value, st1)
    else if token.type = .LPAREN then do
      let st1 ← eat .LPAREN st
      let p ← expr fuel st1
      let st2 ← eat .RPAREN p.2
      .ok (p.1, st2)
    else
      .ok (.undefined, st)

/-- The term method of the Parser: a factor followed by the MUL / DIVIDE loop. -/
def term : ℕ → ParserState → Except EvalError (AST × ParserState)
  | 0, _ => .error .outOfFuel
  | fuel + 1, st => do
    let p ← factor fuel st
    termLoop fuel p.1 p.2

/-- The while loop inside term: as long as the lookahead is MUL or DIVIDE, eat
the operator and wrap the node built so far as the left child of a new BinOp
whose right child is the next factor. -/
def termLoop : ℕ → AST → ParserState → Except EvalError (AST × ParserState)
  | 0, _, _ => .error .outOfFuel
  | fuel + 1, node, st =>
    if st.lookahead.type = .MUL ∨ st.lookahead.type = .DIVIDE then do
      let token := st.lookahead
      let st1 ← eat token.type st
      let p ← factor fuel st1
      termLoop fuel (.binOp node token p.1) p.2
    else .ok (node, st)

/-- The expr method of the Parser: a term followed by the MINUS / PLUS loop. -/
def expr : ℕ → ParserState → Except EvalError (AST × ParserState)
  | 0, _ => .error .outOfFuel
  | fuel + 1, st => do
    let p ← term fuel st
    exprLoop fuel p.1 p.2

/-- The while loop inside expr: as long as the lookahead is MINUS or PLUS, eat
the operator and wrap the node built so far as the left child of a new BinOp
whose right child is the next term. -/
def exprLoop : ℕ → AST → ParserState → Except EvalError (AST × ParserState)
  | 0, _, _ => .error .outOfFuel
  | fuel + 1, node, st =>
    if st.lookahead.type = .MINUS ∨ st.lookahead.type = .PLUS then do
      let token := st.lookahead
      let st1 ← eat token.type st
      let p ← term fuel st1
      exprLoop fuel (.binOp node token p.1) p.2
    else .ok (node, st)

end

/-- The operator dispatch of visitUnaryOp, applied to the already visited
operand value: unary plus is the numeric coercion, unary minus negates; the
fall-through for any other operator token returns undefined. -/
def applyUnaryOp (op : Token) (v : JSVal) : JSVal :=
  if op.type = .PLUS then .num v.toNum
  else if op.type = .MINUS then .num v.toNum.neg
  else .undefined

/-- The operator dispatch of visitBinOp, applied to the already visited child
values; the fall-through for any other operator token returns undefined. -/
def applyBinOp (op : Token) (l r : JSVal) : JSVal :=
  if op.type = .PLUS then .num (JSNum.add l.toNum r.toNum)
  else if op.type = .MINUS then .num (JSNum.sub l.toNum r.toNum)
  else if op.type = .MUL then .num (JSNum.mul l.toNum r.toNum)
  else if op.type = .DIVIDE then .num (JSNum.div l.toNum r.toNum)
  else .undefined

/-- The visit method of the Interpreter: dispatch on the node variant; visiting
an absent node (the instanceof chain falling through) yields undefined, and a
Num node yields its stored value. -/
def visit : AST → JSVal
  | .undefined => .undefined
  | .num (some q) => .num (.fin q)
  | .num none => .undefined
  | .unaryOp op e => applyUnaryOp op (visit e)
  | .binOp l op r => applyBinOp op (visit l) (visit r)

/-- Fuel that is always sufficient for the fuelled parser on the given input. -/
def fuelFor (s : String) : ℕ := 8 * s.length + 8

/-- The parse method of the Parser over a freshly constructed Lexer: prime the
lookahead, then run expr. The returned state records the lookahead left over
when expr stops; parse performs no check that it is the END token. -/
def parseInput (s : String) : Except EvalError (AST × ParserState) := do
  let st ← mkParser s.data
  expr (fuelFor s) st

/-- The whole pipeline (the interpret method over a freshly constructed Lexer
and Parser): lex and parse the input string, then fold the tree. This is the
function the spec calls evaluate. -/
def evaluate (s : String) : Except EvalError JSVal := do
  let p ← parseInput s
  .ok (visit p.1)

/-! Auxiliary vocabulary used to state the universally quantified claims:
decimal renderings of natural numbers, flat operator chains, and the
division-free trees of the round-trip property. -/

/-- The list has no leading digit character (so a maximal digit run ending
just before it is not extended). -/
def headNotDigit (ys : List Char) : Prop :=
  ∀ c, ys.head? = some c → c.isDigit = false

/-- The decimal character of a digit value. -/
def digitChar (d : ℕ) : Char := Char.ofNat (48 + d)

/-- Decimal rendering of a natural number, most significant digit first. -/
def natChars (n : ℕ) : List Char :=
  if n = 0 then ['0'] else ((Nat.digits 10 n).map digitChar).reverse

/-- An additive operator, for stating chains at the expr level. -/
inductive AddOp where
  | plus
  | minus
deriving DecidableEq, Repr

/-- The token the lexer produces for an additive operator character. -/
def AddOp.tok : AddOp → Token
  | plus => ⟨.PLUS, none⟩
  | minus => ⟨.MINUS, none⟩

/-- The source character of an additive operator. -/
def AddOp.char : AddOp → Char
  | plus => '+'
  | minus => '-'

/-- A multiplicative operator, for stating chains at the term level. -/
inductive MulOp where
  | mul
  | divide
deriving DecidableEq, Repr

/-- The token the lexer produces for a multiplicative operator character. -/
def MulOp.tok : MulOp → Token
  | mul => ⟨.MUL, none⟩
  | divide => ⟨.DIVIDE, none⟩

/-- The source character of a multiplicative operator. -/
def MulOp.char : MulOp → Char
  | mul => '*'
  | divide => '/'

/-- The text of the tail of an operator chain: one operator character and one
literal per link. -/
def addTail (ps : List (AddOp × ℕ)) : List Char :=
  ps.flatMap fun p => p.1.char :: natChars p.2

/-- The text of a flat additive chain: a literal followed by
operator-and-literal links. -/
def addChain (n : ℕ) (ps : List (AddOp × ℕ)) : List Char :=
  natChars n ++ addTail ps

/-- The left-associative tree the claim says the parser builds for an additive
chain: each link wraps the node built so far as the left child. -/
def addChainAST (n : ℕ) (ps : List (AddOp × ℕ)) : AST :=
  ps.foldl (fun acc p => .binOp acc p.1.tok (.num (some (p.2 : ℚ)))) (.num (some (n : ℚ)))

/-- The text of the tail of a multiplicative chain. -/
def mulTail (ps : List (MulOp × ℕ)) : List Char :=
  ps.flatMap fun p => p.1.char :: natChars p.2

/-- The text of a flat multiplicative chain. -/
def mulChain (n : ℕ) (ps : List (MulOp × ℕ)) : List Char :=
  natChars n ++ mulTail ps

/-- The left-associative tree of a multiplicative chain. -/
def mulChainAST (n : ℕ) (ps : List (MulOp × ℕ)) : AST :=
  ps.foldl (fun acc p => .binOp acc p.1.tok (.num (some (p.2 : ℚ)))) (.num (some (n : ℚ)))

/-- A binary operator of the round-trip property (division excluded). -/
inductive ROp where
  | plus
  | minus
  | mul
deriving DecidableEq, Repr

/-- The token of a round-trip operator. -/
def ROp.tok : ROp → Token
  | plus => ⟨.PLUS, none⟩
  | minus => ⟨.MINUS, none⟩
  | mul => ⟨.MUL, none⟩

/-- The source character of a round-trip operator. -/
def ROp.char : ROp → Char
  | plus => '+'
  | minus => '-'
  | mul => '*'

/-- A finite tree built only from non-negative integer literals and the binary
operators of ROp, the domain of the round-trip property. -/
inductive RTree where
  | lit (n : ℕ)
  | node (l : RTree) (op : ROp) (r : RTree)
deriving DecidableEq, Repr

/-- Directly folding the tree with the corresponding arithmetic operations. -/
def RTree.fold : RTree → ℚ
  | lit n => n
  | node l op r =>
    match op with
    | .plus => l.fold + r.fold
    | .minus => l.fold - r.fold
    | .mul => l.fold * r.fold

/-- A textual rendering of the tree: literals in decimal, every operator
application fully parenthesized. -/
def RTree.render : RTree → List Char
  | lit n => natChars n
  | node l op r => '(' :: (l.render ++ op.char :: (r.render ++ [')']))

/-- The AST the parser builds back from the rendering. -/
def RTree.ast : RTree → AST
  | lit n => .num (some n)
  | node l op r => .binOp l.ast op.tok r.ast

/-- Parser fuel sufficient to parse the rendering of the tree. -/
def RTree.cost : RTree → ℕ
  | lit _ => 8
  | node l _ r => l.cost + r.cost + 8

/-- The characters the scanner recognizes as the start of a token (digits and
the six symbols); together with the space character these are exactly the
characters that do not raise InvalidCharacter. -/
def validStart (c : Char) : Prop :=
  c.isDigit = true ∨ c = '(' ∨ c = ')' ∨ c = '+' ∨ c = '-' ∨ c = '*' ∨ c = '/'

/-! Lexer lemmas: behaviour of nextToken on a rendered literal, on operator
characters, and on an unrecognized character. -/

theorem takeWhile_all_append {p : Char → Bool} :
    ∀ xs ys : List Char, (∀ c ∈ xs, p c = true) →
      (∀ c, ys.head? = some c → p c = false) →
      (xs ++ ys).takeWhile p = xs ∧ (xs ++ ys).dropWhile p = ys := by
  intro xs
  induction xs with
  | nil =>
    intro ys _ hys
    cases ys with
    | nil => simp
    | cons c t =>
      have hc : p c = false := hys c rfl
      simp [List.takeWhile_cons, List.dropWhile_cons, hc]
  | cons x xs ih =>
    intro ys hxs hys
    have hx : p x = true := hxs x (by simp)
    have h2 := ih ys (fun c hc => hxs c (by simp [hc])) hys
    simp [List.takeWhile_cons, List.dropWhile_cons, hx, h2.1, h2.2]

theorem dropWhile_all_append {p : Char → Bool} :
    ∀ xs ys : List Char, (∀ c ∈ xs, p c = true) →
      (xs ++ ys).dropWhile p = ys.dropWhile p := by
  intro xs
  induction xs with
  | nil => intro ys _; simp
  | cons x xs ih =>
    intro ys hxs
    have hx : p x = true := hxs x (by simp)
    simp only [List.cons_append, List.dropWhile_cons, hx, if_true]
    exact ih ys fun c hc => hxs c (by simp [hc])

theorem digitChar_isDigit {d : ℕ} (hd : d < 10) : (digitChar d).isDigit = true := by
  interval_cases d <;> decide

theorem digitVal_digitChar {d : ℕ} (hd : d < 10) : digitVal (digitChar d) = d := by
  interval_cases d <;> decide

theorem natChars_digits (n : ℕ) : ∀ c ∈ natChars n, c.isDigit = true := by
  intro c hc
  unfold natChars at hc
  split at hc
  · simp only [List.mem_singleton] at hc
    rw [hc]; decide
  · simp only [List.mem_reverse, List.mem_map] at hc
    obtain ⟨d, hd, rfl⟩ := hc
    exact digitChar_isDigit (Nat.digits_lt_base (by norm_num) hd)

theorem natChars_ne_nil (n : ℕ) : natChars n ≠ [] := by
  unfold natChars
  split
  · simp
  · simp only [ne_eq, List.reverse_eq_nil_iff, List.map_eq_nil_iff]
    exact Nat.digits_ne_nil_iff_ne_zero.mpr (by assumption)

theorem foldl_digitChars :
    ∀ L : List ℕ, (∀ d ∈ L, d < 10) → ∀ a : ℕ,
      ((L.map digitChar).reverse).foldl (fun acc c => 10 * acc + digitVal c) a
        = a * 10 ^ L.length + Nat.ofDigits 10 L := by
  intro L
  induction L with
  | nil => intro _ a; simp
  | cons d L ih =>
    intro h a
    have hd : d < 10 := h d (by simp)
    have hL : ∀ x ∈ L, x < 10 := fun x hx => h x (by simp [hx])
    simp only [List.map_cons, List.reverse_cons, List.foldl_append, List.foldl_cons,
      List.foldl_nil, List.length_cons]
    rw [ih hL a, digitVal_digitChar hd, Nat.ofDigits_cons]
    ring

theorem natVal_natChars (n : ℕ) :
    (natChars n).foldl (fun acc c => 10 * acc + digitVal c) 0 = n := by
  unfold natChars
  split
  · subst n
    decide
  · rw [foldl_digitChars _ (fun d hd => Nat.digits_lt_base (by norm_num) hd) 0]
    simp [Nat.ofDigits_digits]

theorem integerRun_natChars (n : ℕ) (ys : List Char) (hys : headNotDigit ys) :
    integerRun (natChars n ++ ys) = ((n : ℚ), ys) := by
  have h := takeWhile_all_append (natChars n) ys (natChars_digits n) hys
  unfold integerRun
  rw [h.1, h.2, natVal_natChars]

theorem nextToken_natChars (n : ℕ) (ys : List Char) (hys : headNotDigit ys) :
    nextToken (natChars n ++ ys) = .ok (⟨.INTEGER, some (n : ℚ)⟩, ys) := by
  obtain ⟨c, cs, hcons⟩ : ∃ c cs, natChars n = c :: cs := by
    cases h : natChars n with
    | nil => exact absurd h (natChars_ne_nil n)
    | cons c cs => exact ⟨c, cs, rfl⟩
  have hcdig : c.isDigit = true := natChars_digits n c (by rw [hcons]; simp)
  have hcsp : (c == ' ') = false := by
    refine beq_eq_false_iff_ne.mpr ?_
    intro he
    rw [he] at hcdig
    exact absurd hcdig (by decide)
  have hrun : integerRun (c :: (cs ++ ys)) = ((n : ℚ), ys) := by
    rw [show c :: (cs ++ ys) = (c :: cs) ++ ys from rfl, ← hcons]
    exact integerRun_natChars n ys hys
  rw [hcons]
  unfold nextToken
  simp only [List.cons_append, List.dropWhile_cons, hcsp, Bool.false_eq_true, if_false,
    hcdig, if_true, hrun]

theorem nextToken_nil : nextToken [] = .ok (⟨.EOF, none⟩, []) := rfl

theorem nextToken_lparen (ys : List Char) :
    nextToken ('(' :: ys) = .ok (⟨.LPAREN, none⟩, ys) := rfl

theorem nextToken_rparen (ys : List Char) :
    nextToken (')' :: ys) = .ok (⟨.RPAREN, none⟩, ys) := rfl

theorem nextToken_plus (ys : List Char) :
    nextToken ('+' :: ys) = .ok (⟨.PLUS, none⟩, ys) := rfl

theorem nextToken_minus (ys : List Char) :
    nextToken ('-' :: ys) = .ok (⟨.MINUS, none⟩, ys) := rfl

theorem nextToken_mul (ys : List Char) :
    nextToken ('*' :: ys) = .ok (⟨.MUL, none⟩, ys) := rfl

theorem nextToken_divide (ys : List Char) :
    nextToken ('/' :: ys) = .ok (⟨.DIVIDE, none⟩, ys) := rfl

theorem mkParser_nil : mkParser [] = .ok ⟨⟨.EOF, none⟩, []⟩ := rfl

theorem mkParser_natChars (n : ℕ) (ys : List Char) (hys : headNotDigit ys) :
    mkParser (natChars n ++ ys) = .ok ⟨⟨.INTEGER, some (n : ℚ)⟩, ys⟩ := by
  unfold mkParser
  rw [nextToken_natChars n ys hys]
  rfl

theorem mkParser_lparen (ys : List Char) :
    mkParser ('(' :: ys) = .ok ⟨⟨.LPAREN, none⟩, ys⟩ := rfl

theorem mkParser_rparen (ys : List Char) :
    mkParser (')' :: ys) = .ok ⟨⟨.RPAREN, none⟩, ys⟩ := rfl

theorem mkParser_addChar (o : AddOp) (ys : List Char) :
    mkParser (o.char :: ys) = .ok ⟨o.tok, ys⟩ := by
  cases o <;> rfl

theorem mkParser_mulChar (o : MulOp) (ys : List Char) :
    mkParser (o.char :: ys) = .ok ⟨o.tok, ys⟩ := by
  cases o <;> rfl

theorem mkParser_ropChar (o : ROp) (ys : List Char) :
    mkParser (o.char :: ys) = .ok ⟨o.tok, ys⟩ := by
  cases o <;> rfl

theorem headNotDigit_nil : headNotDigit [] := by
  intro c hc
  simp at hc

theorem headNotDigit_cons {c : Char} {ys : List Char} (h : c.isDigit = false) :
    headNotDigit (c :: ys) := by
  intro d hd
  simp only [List.head?_cons, Option.some.injEq] at hd
  rw [← hd]
  exact h

theorem addChar_not_digit (o : AddOp) : o.char.isDigit = false := by
  cases o <;> decide

theorem mulChar_not_digit (o : MulOp) : o.char.isDigit = false := by
  cases o <;> decide

theorem ropChar_not_digit (o : ROp) : o.char.isDigit = false := by
  cases o <;> decide

theorem addTail_cons (o : AddOp) (k : ℕ) (ps : List (AddOp × ℕ)) :
    addTail ((o, k) :: ps) = o.char :: (natChars k ++ addTail ps) := by
  simp [addTail]

theorem mulTail_cons (o : MulOp) (k : ℕ) (ps : List (MulOp × ℕ)) :
    mulTail ((o, k) :: ps) = o.char :: (natChars k ++ mulTail ps) := by
  simp [mulTail]

theorem headNotDigit_addTail (ps : List (AddOp × ℕ)) : headNotDigit (addTail ps) := by
  cases ps with
  | nil => exact headNotDigit_nil
  | cons hd ps =>
    obtain ⟨o, k⟩ := hd
    rw [addTail_cons]
    exact headNotDigit_cons (addChar_not_digit o)

theorem headNotDigit_mulTail (ps : List (MulOp × ℕ)) : headNotDigit (mulTail ps) := by
  cases ps with
  | nil => exact headNotDigit_nil
  | cons hd ps =>
    obtain ⟨o, k⟩ := hd
    rw [mulTail_cons]
    exact headNotDigit_cons (mulChar_not_digit o)

/-! Bind reduction helpers for the Except monad. -/

theorem eBind_ok {α β : Type} (a : α) (f : α → Except EvalError β) :
    (Except.ok a : Except EvalError α) >>= f = f a := rfl

theorem eBind_error {α β : Type} (e : EvalError) (f : α → Except EvalError β) :
    (Except.error e : Except EvalError α) >>= f = .error e := rfl

/-! Step lemmas: one unfolding of each parser function, conditioned on the
lookahead kind. These express directly how the while loops of term and expr
extend the tree: the node built so far becomes the left child. -/

theorem factor_plus (fuel : ℕ) (st : ParserState) (h : st.lookahead.type = .PLUS) :
    factor (fuel + 1) st
      = (eat .PLUS st) >>= fun st1 =>
          (factor fuel st1) >>= fun p =>
            .ok (.unaryOp st.lookahead p.1, p.2) := by
  simp only [factor, h]
  rfl

theorem factor_minus (fuel : ℕ) (st : ParserState) (h : st.lookahead.type = .MINUS) :
    factor (fuel + 1) st
      = (eat .MINUS st) >>= fun st1 =>
          (factor fuel st1) >>= fun p =>
            .ok (.unaryOp st.lookahead p.1, p.2) := by
  simp only [factor, h]
  rfl

theorem factor_int (fuel : ℕ) (st : ParserState) (h : st.lookahead.type = .INTEGER) :
    factor (fuel + 1) st
      = (eat .INTEGER st) >>= fun st1 => .ok (.num st.lookahead.value, st1) := by
  simp only [factor, h]
  rfl

theorem factor_lparen (fuel : ℕ) (st : ParserState) (h : st.lookahead.type = .LPAREN) :
    factor (fuel + 1) st
      = (eat .LPAREN st) >>= fun st1 =>
          (expr fuel st1) >>= fun p =>
            (eat .RPAREN p.2) >>= fun st2 =>
              .ok (p.1, st2) := by
  simp only [factor, h]
  rfl

theorem factor_fall (fuel : ℕ) (st : ParserState)
    (h1 : st.lookahead.type ≠ .PLUS) (h2 : st.lookahead.type ≠ .MINUS)
    (h3 : st.lookahead.type ≠ .INTEGER) (h4 : st.lookahead.type ≠ .LPAREN) :
    factor (fuel + 1) st = .ok (.undefined, st) := by
  simp only [factor, if_neg h1, if_neg h2, if_neg h3, if_neg h4]

theorem term_unfold (fuel : ℕ) (st : ParserState) :
    term (fuel + 1) st = (factor fuel st) >>= fun p => termLoop fuel p.1 p.2 := rfl

theorem expr_unfold (fuel : ℕ) (st : ParserState) :
    expr (fuel + 1) st = (term fuel st) >>= fun p => exprLoop fuel p.1 p.2 := rfl

theorem termLoop_step (fuel : ℕ) (node : AST) (st : ParserState)
    (h : st.lookahead.type = .MUL ∨ st.lookahead.type = .DIVIDE) :
    termLoop (fuel + 1) node st
      = (eat st.lookahead.type st) >>= fun st1 =>
          (factor fuel st1) >>= fun p =>
            termLoop fuel (.binOp node st.lookahead p.1) p.2 := by
  simp only [termLoop, if_pos h]

theorem termLoop_exit (fuel : ℕ) (node : AST) (st : ParserState)
    (h : ¬(st.lookahead.type = .MUL ∨ st.lookahead.type = .DIVIDE)) :
    termLoop (fuel + 1) node st = .ok (node, st) := by
  simp only [termLoop, if_neg h]

theorem exprLoop_step (fuel : ℕ) (node : AST) (st : ParserState)
    (h : st.lookahead.type = .MINUS ∨ st.lookahead.type = .PLUS) :
    exprLoop (fuel + 1) node st
      = (eat st.lookahead.type st) >>= fun st1 =>
          (term fuel st1) >>= fun p =>
            exprLoop fuel (.binOp node st.lookahead p.1) p.2 := by
  simp only [exprLoop, if_pos h]

theorem exprLoop_exit (fuel : ℕ) (node : AST) (st : ParserState)
    (h : ¬(st.lookahead.type = .MINUS ∨ st.lookahead.type = .PLUS)) :
    exprLoop (fuel + 1) node st = .ok (node, st) := by
  simp only [exprLoop, if_neg h]

theorem eat_ok (tt : TokenType) (st : ParserState) (h : st.lookahead.type = tt) :
    eat tt st = mkParser st.rest := by
  simp only [eat, if_pos h]

/-! Chain lemmas: parsing a flat chain of same-precedence operators builds the
left fold of BinOp over the links, i.e. a left-associative tree. -/

theorem mkParser_addTail (ps : List (AddOp × ℕ)) :
    ∃ st, mkParser (addTail ps) = .ok st ∧
      ¬(st.lookahead.type = .MUL ∨ st.lookahead.type = .DIVIDE) := by
  cases ps with
  | nil => exact ⟨⟨⟨.EOF, none⟩, []⟩, rfl, by simp⟩
  | cons hd ps =>
    obtain ⟨o, k⟩ := hd
    refine ⟨⟨o.tok, natChars k ++ addTail ps⟩, ?_, ?_⟩
    · rw [addTail_cons]
      exact mkParser_addChar o _
    · cases o <;> simp [AddOp.tok]

theorem exprLoop_addTail :
    ∀ (ps : List (AddOp × ℕ)) (fuel : ℕ) (node : AST) (st : ParserState),
      4 * ps.length + 1 ≤ fuel →
      mkParser (addTail ps) = .ok st →
      exprLoop fuel node st
        = .ok (ps.foldl (fun acc p => .binOp acc p.1.tok (.num (some (p.2 : ℚ)))) node,
            ⟨⟨.EOF, none⟩, []⟩) := by
  intro ps
  induction ps with
  | nil =>
    intro fuel node st hfuel hst
    obtain ⟨f, rfl⟩ : ∃ f, fuel = f + 1 := ⟨fuel - 1, by omega⟩
    have hst2 : ParserState.mk ⟨.EOF, none⟩ [] = st := by
      have h0 : mkParser (addTail []) = .ok ⟨⟨.EOF, none⟩, []⟩ := rfl
      rw [h0] at hst
      exact Except.ok.inj hst
    rw [← hst2]
    rw [exprLoop_exit _ _ _ (by simp)]
    simp
  | cons hd ps ih =>
    obtain ⟨o, k⟩ := hd
    intro fuel node st hfuel hst
    simp only [List.length_cons] at hfuel
    obtain ⟨g, rfl⟩ : ∃ g, fuel = (g + 1) + 2 := ⟨fuel - 3, by omega⟩
    have hst2 : ParserState.mk o.tok (natChars k ++ addTail ps) = st := by
      rw [addTail_cons, mkParser_addChar] at hst
      exact Except.ok.inj hst
    rw [← hst2]
    have hcond : (ParserState.mk o.tok (natChars k ++ addTail ps)).lookahead.type = .MINUS ∨
        (ParserState.mk o.tok (natChars k ++ addTail ps)).lookahead.type = .PLUS := by
      cases o <;> simp [AddOp.tok]
    rw [exprLoop_step _ _ _ hcond]
    have heat : eat (ParserState.mk o.tok (natChars k ++ addTail ps)).lookahead.type
        ⟨o.tok, natChars k ++ addTail ps⟩ = .ok ⟨⟨.INTEGER, some (k : ℚ)⟩, addTail ps⟩ := by
      rw [eat_ok _ _ rfl]
      exact mkParser_natChars k _ (headNotDigit_addTail ps)
    rw [heat, eBind_ok]
    obtain ⟨st3, hst3, hst3ty⟩ := mkParser_addTail ps
    have hterm : term (g + 1 + 1) ⟨⟨.INTEGER, some (k : ℚ)⟩, addTail ps⟩
        = .ok (.num (some (k : ℚ)), st3) := by
      rw [term_unfold]
      rw [factor_int _ _ rfl]
      rw [eat_ok .INTEGER ⟨⟨.INTEGER, some (k : ℚ)⟩, addTail ps⟩ rfl]
      show (mkParser (addTail ps) >>= _) >>= _ = _
      rw [hst3, eBind_ok, eBind_ok]
      rw [termLoop_exit _ _ _ hst3ty]
    rw [hterm, eBind_ok]
    rw [ih (g + 1 + 1) _ st3 (by omega) hst3]
    simp [AddOp.tok]

theorem eMap_ok {α β : Type} (a : α) (f : α → β) :
    (Except.ok a : Except EvalError α).map f = .ok (f a) := rfl

theorem eMap_error {α β : Type} (e : EvalError) (f : α → β) :
    (Except.error e : Except EvalError α).map f = .error e := rfl

theorem bind_ok_eq_map {α β : Type} (x : Except EvalError α) (g : α → β) :
    (x >>= fun a => .ok (g a)) = x.map g := by
  cases x <;> rfl

theorem mkParser_render_ok (t : RTree) (ys : List Char) (hys : headNotDigit ys) :
    ∃ st, mkParser (t.render ++ ys) = .ok st := by
  cases t with
  | lit n => exact ⟨_, mkParser_natChars n ys hys⟩
  | node l op r =>
    simp only [RTree.render, List.cons_append]
    exact ⟨_, mkParser_lparen _⟩

/-- The central parsing lemma of the round-trip property: running factor on a
fully parenthesized rendering of a tree consumes exactly the rendering and
returns the corresponding AST, leaving the parser primed on the continuation. -/
theorem factor_render :
    ∀ (t : RTree) (fuel : ℕ) (ys : List Char) (st : ParserState),
      t.cost ≤ fuel → headNotDigit ys →
      mkParser (t.render ++ ys) = .ok st →
      factor fuel st = (mkParser ys).map fun st2 => (t.ast, st2) := by
  intro t
  induction t with
  | lit n =>
    intro fuel ys st hfuel hys hst
    rw [RTree.cost] at hfuel
    obtain ⟨f, rfl⟩ : ∃ f, fuel = f + 1 := ⟨fuel - 1, by omega⟩
    have hst2 : ParserState.mk ⟨.INTEGER, some (n : ℚ)⟩ ys = st := by
      simp only [RTree.render] at hst
      rw [mkParser_natChars n ys hys] at hst
      exact Except.ok.inj hst
    rw [← hst2]
    rw [factor_int _ _ rfl]
    rw [eat_ok .INTEGER ⟨⟨.INTEGER, some (n : ℚ)⟩, ys⟩ rfl]
    rw [bind_ok_eq_map]
    rfl
  | node l op r ihl ihr =>
    intro fuel ys st hfuel hys hst
    rw [RTree.cost] at hfuel
    obtain ⟨g, rfl⟩ : ∃ g, fuel = g + 8 := ⟨fuel - 8, by omega⟩
    have hg : l.cost + r.cost ≤ g := by omega
    have hre : RTree.render (.node l op r) ++ ys
        = '(' :: (l.render ++ (op.char :: (r.render ++ (')' :: ys)))) := by
      simp [RTree.render]
    rw [hre] at hst
    have hst2 : ParserState.mk ⟨.LPAREN, none⟩
        (l.render ++ (op.char :: (r.render ++ (')' :: ys)))) = st := by
      rw [mkParser_lparen] at hst
      exact Except.ok.inj hst
    rw [← hst2]
    rw [factor_lparen _ _ rfl]
    rw [eat_ok .LPAREN _ rfl]
    obtain ⟨st1, hst1⟩ := mkParser_render_ok l _ (headNotDigit_cons (ropChar_not_digit op))
    rw [hst1, eBind_ok]
    obtain ⟨st2, hst2b⟩ := mkParser_render_ok r (')' :: ys)
        (headNotDigit_cons (show (')').isDigit = false by decide))
    have hfacl : factor (g + 5) st1
        = .ok (l.ast, ⟨op.tok, r.render ++ (')' :: ys)⟩) := by
      rw [ihl (g + 5) _ st1 (by omega) (headNotDigit_cons (ropChar_not_digit op)) hst1]
      rw [mkParser_ropChar]
      rfl
    have hfacr : ∀ fr, r.cost ≤ fr →
        factor fr st2 = .ok (r.ast, ⟨⟨.RPAREN, none⟩, ys⟩) := by
      intro fr hfr
      rw [ihr fr (')' :: ys) st2 hfr
          (headNotDigit_cons (show (')').isDigit = false by decide)) hst2b]
      rw [mkParser_rparen]
      rfl
    have hexpr : expr (g + 7) st1
        = .ok (.binOp l.ast op.tok r.ast, ⟨⟨.RPAREN, none⟩, ys⟩) := by
      rw [expr_unfold]
      cases op with
      | mul =>
        have hterm : term (g + 6) st1
            = .ok (.binOp l.ast ROp.mul.tok r.ast, ⟨⟨.RPAREN, none⟩, ys⟩) := by
          rw [term_unfold, hfacl, eBind_ok]
          rw [termLoop_step _ _ _ (by simp [ROp.tok])]
          rw [eat_ok _ _ rfl]
          show (mkParser (r.render ++ (')' :: ys)) >>= _) = _
          rw [hst2b, eBind_ok]
          rw [hfacr (g + 4) (by omega), eBind_ok]
          rw [termLoop_exit _ _ _ (by simp)]
        rw [hterm, eBind_ok]
        rw [exprLoop_exit _ _ _ (by simp)]
      | plus =>
        have hterm : term (g + 6) st1 = .ok (l.ast, ⟨ROp.plus.tok, r.render ++ (')' :: ys)⟩) := by
          rw [term_unfold, hfacl, eBind_ok]
          rw [termLoop_exit _ _ _ (by simp [ROp.tok])]
        rw [hterm, eBind_ok]
        rw [exprLoop_step _ _ _ (by simp [ROp.tok])]
        rw [eat_ok _ _ rfl]
        show (mkParser (r.render ++ (')' :: ys)) >>= _) = _
        rw [hst2b, eBind_ok]
        have hterm2 : term (g + 5) st2 = .ok (r.ast, ⟨⟨.RPAREN, none⟩, ys⟩) := by
          rw [term_unfold]
          rw [hfacr (g + 4) (by omega), eBind_ok]
          rw [termLoop_exit _ _ _ (by simp)]
        rw [hterm2, eBind_ok]
        rw [exprLoop_exit _ _ _ (by simp)]
      | minus =>
        have hterm : term (g + 6) st1 = .ok (l.ast, ⟨ROp.minus.tok, r.render ++ (')' :: ys)⟩) := by
          rw [term_unfold, hfacl, eBind_ok]
          rw [termLoop_exit _ _ _ (by simp [ROp.tok])]
        rw [hterm, eBind_ok]
        rw [exprLoop_step _ _ _ (by simp [ROp.tok])]
        rw [eat_ok _ _ rfl]
        show (mkParser (r.render ++ (')' :: ys)) >>= _) = _
        rw [hst2b, eBind_ok]
        have hterm2 : term (g + 5) st2 = .ok (r.ast, ⟨⟨.RPAREN, none⟩, ys⟩) := by
          rw [term_unfold]
          rw [hfacr (g + 4) (by omega), eBind_ok]
          rw [termLoop_exit _ _ _ (by simp)]
        rw [hterm2, eBind_ok]
        rw [exprLoop_exit _ _ _ (by simp)]
    rw [hexpr, eBind_ok]
    rw [eat_ok .RPAREN _ rfl]
    rw [bind_ok_eq_map]
    rfl

theorem mkParser_mulTail (ps : List (MulOp × ℕ)) :
    ∃ st, mkParser (mulTail ps) = .ok st ∧
      ¬(st.lookahead.type = .MINUS ∨ st.lookahead.type = .PLUS) := by
  cases ps with
  | nil => exact ⟨⟨⟨.EOF, none⟩, []⟩, rfl, by simp⟩
  | cons hd ps =>
    obtain ⟨o, k⟩ := hd
    refine ⟨⟨o.tok, natChars k ++ mulTail ps⟩, ?_, ?_⟩
    · rw [mulTail_cons]
      exact mkParser_mulChar o _
    · cases o <;> simp [MulOp.tok]

theorem termLoop_mulTail :
    ∀ (ps : List (MulOp × ℕ)) (fuel : ℕ) (node : AST) (st : ParserState),
      4 * ps.length + 1 ≤ fuel →
      mkParser (mulTail ps) = .ok st →
      termLoop fuel node st
        = .ok (ps.foldl (fun acc p => .binOp acc p.1.tok (.num (some (p.2 : ℚ)))) node,
            ⟨⟨.EOF, none⟩, []⟩) := by
  intro ps
  induction ps with
  | nil =>
    intro fuel node st hfuel hst
    obtain ⟨f, rfl⟩ : ∃ f, fuel = f + 1 := ⟨fuel - 1, by omega⟩
    have hst2 : ParserState.mk ⟨.EOF, none⟩ [] = st := by
      have h0 : mkParser (mulTail []) = .ok ⟨⟨.EOF, none⟩, []⟩ := rfl
      rw [h0] at hst
      exact Except.ok.inj hst
    rw [← hst2]
    rw [termLoop_exit _ _ _ (by simp)]
    simp
  | cons hd ps ih =>
    obtain ⟨o, k⟩ := hd
    intro fuel node st hfuel hst
    simp only [List.length_cons] at hfuel
    obtain ⟨g, rfl⟩ : ∃ g, fuel = (g + 1) + 2 := ⟨fuel - 3, by omega⟩
    have hst2 : ParserState.mk o.tok (natChars k ++ mulTail ps) = st := by
      rw [mulTail_cons, mkParser_mulChar] at hst
      exact Except.ok.inj hst
    rw [← hst2]
    have hcond : (ParserState.mk o.tok (natChars k ++ mulTail ps)).lookahead.type = .MUL ∨
        (ParserState.mk o.tok (natChars k ++ mulTail ps)).lookahead.type = .DIVIDE := by
      cases o <;> simp [MulOp.tok]
    rw [termLoop_step _ _ _ hcond]
    have heat : eat (ParserState.mk o.tok (natChars k ++ mulTail ps)).lookahead.type
        ⟨o.tok, natChars k ++ mulTail ps⟩ = .ok ⟨⟨.INTEGER, some (k : ℚ)⟩, mulTail ps⟩ := by
      rw [eat_ok _ _ rfl]
      exact mkParser_natChars k _ (headNotDigit_mulTail ps)
    rw [heat, eBind_ok]
    obtain ⟨st3, hst3, _⟩ := mkParser_mulTail ps
    have hfac : factor (g + 1 + 1) ⟨⟨.INTEGER, some (k : ℚ)⟩, mulTail ps⟩
        = .ok (.num (some (k : ℚ)), st3) := by
      rw [factor_int _ _ rfl]
      rw [eat_ok .INTEGER ⟨⟨.INTEGER, some (k : ℚ)⟩, mulTail ps⟩ rfl]
      show (mkParser (mulTail ps) >>= _) = _
      rw [hst3, eBind_ok]
    rw [hfac, eBind_ok]
    rw [ih (g + 1 + 1) _ st3 (by omega) hst3]
    simp [MulOp.tok]

/-! Top-level chain theorems: the full parse of a flat chain is the left fold. -/

theorem natChars_length_pos (n : ℕ) : 1 ≤ (natChars n).length :=
  List.length_pos.mpr (natChars_ne_nil n)

theorem addTail_length (ps : List (AddOp × ℕ)) : 2 * ps.length ≤ (addTail ps).length := by
  induction ps with
  | nil => simp [addTail]
  | cons hd ps ih =>
    obtain ⟨o, k⟩ := hd
    rw [addTail_cons]
    simp only [List.length_cons, List.length_append]
    have := natChars_length_pos k
    omega

theorem mulTail_length (ps : List (MulOp × ℕ)) : 2 * ps.length ≤ (mulTail ps).length := by
  induction ps with
  | nil => simp [mulTail]
  | cons hd ps ih =>
    obtain ⟨o, k⟩ := hd
    rw [mulTail_cons]
    simp only [List.length_cons, List.length_append]
    have := natChars_length_pos k
    omega

theorem expr_addChain (n : ℕ) (ps : List (AddOp × ℕ)) (fuel : ℕ)
    (hfuel : 4 * ps.length + 4 ≤ fuel) (st : ParserState)
    (hst : mkParser (addChain n ps) = .ok st) :
    expr fuel st = .ok (addChainAST n ps, ⟨⟨.EOF, none⟩, []⟩) := by
  obtain ⟨g, rfl⟩ : ∃ g, fuel = (g + 2) + 2 := ⟨fuel - 4, by omega⟩
  have hst2 : ParserState.mk ⟨.INTEGER, some (n : ℚ)⟩ (addTail ps) = st := by
    rw [show addChain n ps = natChars n ++ addTail ps from rfl] at hst
    rw [mkParser_natChars n _ (headNotDigit_addTail ps)] at hst
    exact Except.ok.inj hst
  rw [← hst2]
  rw [expr_unfold]
  obtain ⟨st3, hst3, hst3ty⟩ := mkParser_addTail ps
  have hterm : term (g + 3) ⟨⟨.INTEGER, some (n : ℚ)⟩, addTail ps⟩
      = .ok (.num (some (n : ℚ)), st3) := by
    rw [term_unfold]
    rw [factor_int _ _ rfl]
    rw [eat_ok .INTEGER ⟨⟨.INTEGER, some (n : ℚ)⟩, addTail ps⟩ rfl]
    show (mkParser (addTail ps) >>= _) >>= _ = _
    rw [hst3, eBind_ok, eBind_ok]
    rw [termLoop_exit _ _ _ hst3ty]
  rw [hterm, eBind_ok]
  exact exprLoop_addTail ps (g + 3) _ st3 (by omega) hst3

theorem term_mulChain (n : ℕ) (ps : List (MulOp × ℕ)) (fuel : ℕ)
    (hfuel : 4 * ps.length + 4 ≤ fuel) (st : ParserState)
    (hst : mkParser (mulChain n ps) = .ok st) :
    term fuel st = .ok (mulChainAST n ps, ⟨⟨.EOF, none⟩, []⟩) := by
  obtain ⟨g, rfl⟩ : ∃ g, fuel = (g + 3) + 1 := ⟨fuel - 4, by omega⟩
  have hst2 : ParserState.mk ⟨.INTEGER, some (n : ℚ)⟩ (mulTail ps) = st := by
    rw [show mulChain n ps = natChars n ++ mulTail ps from rfl] at hst
    rw [mkParser_natChars n _ (headNotDigit_mulTail ps)] at hst
    exact Except.ok.inj hst
  rw [← hst2]
  rw [term_unfold]
  obtain ⟨st3, hst3, _⟩ := mkParser_mulTail ps
  have hfac : factor (g + 3) ⟨⟨.INTEGER, some (n : ℚ)⟩, mulTail ps⟩
      = .ok (.num (some (n : ℚ)), st3) := by
    rw [factor_int _ _ rfl]
    rw [eat_ok .INTEGER ⟨⟨.INTEGER, some (n : ℚ)⟩, mulTail ps⟩ rfl]
    show (mkParser (mulTail ps) >>= _) = _
    rw [hst3, eBind_ok]
  rw [hfac, eBind_ok]
  exact termLoop_mulTail ps (g + 3) _ st3 (by omega) hst3

theorem parseInput_addChain (n : ℕ) (ps : List (AddOp × ℕ)) :
    parseInput (String.mk (addChain n ps)) = .ok (addChainAST n ps, ⟨⟨.EOF, none⟩, []⟩) := by
  have hmk : mkParser (addChain n ps) = .ok ⟨⟨.INTEGER, some (n : ℚ)⟩, addTail ps⟩ := by
    rw [show addChain n ps = natChars n ++ addTail ps from rfl]
    exact mkParser_natChars n _ (headNotDigit_addTail ps)
  show (mkParser (addChain n ps) >>= fun st =>
    expr (fuelFor (String.mk (addChain n ps))) st) = _
  rw [hmk, eBind_ok]
  refine expr_addChain n ps _ ?_ _ hmk
  have hlen : fuelFor (String.mk (addChain n ps)) = 8 * (addChain n ps).length + 8 := rfl
  have h1 : (addChain n ps).length = (natChars n).length + (addTail ps).length := by
    simp [addChain]
  have h2 := addTail_length ps
  have h3 := natChars_length_pos n
  omega

theorem parseInput_mulChain (n : ℕ) (ps : List (MulOp × ℕ)) :
    parseInput (String.mk (mulChain n ps)) = .ok (mulChainAST n ps, ⟨⟨.EOF, none⟩, []⟩) := by
  have hmk : mkParser (mulChain n ps) = .ok ⟨⟨.INTEGER, some (n : ℚ)⟩, mulTail ps⟩ := by
    rw [show mulChain n ps = natChars n ++ mulTail ps from rfl]
    exact mkParser_natChars n _ (headNotDigit_mulTail ps)
  show (mkParser (mulChain n ps) >>= fun st =>
    expr (fuelFor (String.mk (mulChain n ps))) st) = _
  rw [hmk, eBind_ok]
  have hlen : fuelFor (String.mk (mulChain n ps)) = 8 * (mulChain n ps).length + 8 := rfl
  have h1 : (mulChain n ps).length = (natChars n).length + (mulTail ps).length := by
    simp [mulChain]
  have h2 := mulTail_length ps
  have h3 := natChars_length_pos n
  obtain ⟨g, hg, hgle⟩ : ∃ g, fuelFor (String.mk (mulChain n ps)) = (g + 4) + 1 ∧
      4 * ps.length + 4 ≤ g + 4 := ⟨fuelFor (String.mk (mulChain n ps)) - 5, by omega, by omega⟩
  rw [hg]
  rw [expr_unfold]
  rw [term_mulChain n ps (g + 4) hgle _ hmk, eBind_ok]
  rw [exprLoop_exit _ _ _ (by simp)]

/-! Round-trip helpers: evaluating the AST built back from a rendering gives
the direct fold of the tree. -/

theorem visit_ast (t : RTree) : visit t.ast = .num (.fin t.fold) := by
  induction t with
  | lit n => rfl
  | node l op r ihl ihr =>
    cases op <;>
      simp [RTree.ast, RTree.fold, visit, ihl, ihr, applyBinOp, ROp.tok, JSVal.toNum,
        JSNum.add, JSNum.sub, JSNum.mul]

theorem RTree.cost_le_render (t : RTree) : t.cost ≤ 8 * t.render.length := by
  induction t with
  | lit n =>
    simp only [RTree.cost, RTree.render]
    have := natChars_length_pos n
    omega
  | node l op r ihl ihr =>
    simp only [RTree.cost, RTree.render, List.length_cons, List.length_append]
    omega

theorem parseInput_render (t : RTree) :
    parseInput (String.mk t.render) = .ok (t.ast, ⟨⟨.EOF, none⟩, []⟩) := by
  obtain ⟨st, hst⟩ := mkParser_render_ok t [] headNotDigit_nil
  have hst2 : mkParser t.render = .ok st := by
    rw [← List.append_nil t.render]
    exact hst
  show (mkParser t.render >>= fun st1 => expr (fuelFor (String.mk t.render)) st1) = _
  rw [hst2, eBind_ok]
  have hlen : fuelFor (String.mk t.render) = 8 * t.render.length + 8 := rfl
  have hcost := RTree.cost_le_render t
  obtain ⟨g, hg, hgle⟩ : ∃ g, fuelFor (String.mk t.render) = (g + 2) + 1 ∧ t.cost ≤ g + 1 :=
    ⟨fuelFor (String.mk t.render) - 3, by omega, by omega⟩
  rw [hg]
  rw [expr_unfold, term_unfold]
  rw [factor_render t (g + 1) [] st hgle headNotDigit_nil hst]
  rw [mkParser_nil, eMap_ok, eBind_ok]
  show (termLoop (g + 1) t.ast ⟨⟨.EOF, none⟩, []⟩ >>= fun p => exprLoop (g + 2) p.1 p.2) = _
  rw [termLoop_exit _ _ _ (by simp), eBind_ok]
  rw [exprLoop_exit _ _ _ (by simp)]

/-! Error-path helpers. -/

theorem nextToken_invalid (pre : List Char) (c : Char) (rest : List Char)
    (hpre : ∀ x ∈ pre, x = ' ') (hc : c ≠ ' ') (hv : ¬validStart c) :
    nextToken (pre ++ c :: rest) = .error .invalidCharacter := by
  have hdrop : (pre ++ c :: rest).dropWhile (fun x => x == ' ') = c :: rest := by
    rw [dropWhile_all_append pre _ (fun x hx => by rw [hpre x hx]; rfl)]
    rw [List.dropWhile_cons]
    simp [beq_eq_false_iff_ne.mpr hc]
  unfold validStart at hv
  push_neg at hv
  obtain ⟨h1, h2, h3, h4, h5, h6, h7⟩ := hv
  have h1b : c.isDigit = false := Bool.not_eq_true c.isDigit ▸ h1
  unfold nextToken
  rw [hdrop]
  simp [h1b, h2, h3, h4, h5, h6, h7]

theorem evaluate_of_parseInput (s : String) (p : AST × ParserState)
    (h : parseInput s = .ok p) : evaluate s = .ok (visit p.1) := by
  show (parseInput s >>= fun q => .ok (visit q.1)) = _
  rw [h, eBind_ok]

theorem evaluate_first_eof (s : String) (v : Option ℚ) (r : List Char)
    (h : mkParser s.data = .ok ⟨⟨.EOF, v⟩, r⟩) : evaluate s = .ok .undefined := by
  have hp : parseInput s = .ok (.undefined, ⟨⟨.EOF, v⟩, r⟩) := by
    show (mkParser s.data >>= fun st => expr (fuelFor s) st) = _
    rw [h, eBind_ok]
    obtain ⟨g, hg⟩ : ∃ g, fuelFor s = (g + 1) + 2 := ⟨fuelFor s - 3, by
      have : fuelFor s = 8 * s.length + 8 := rfl
      omega⟩
    rw [hg]
    rw [expr_unfold, term_unfold]
    rw [factor_fall _ _ (by simp) (by simp) (by simp) (by simp)]
    rw [eBind_ok]
    show (termLoop (g + 1) .undefined ⟨⟨.EOF, v⟩, r⟩ >>= fun p => exprLoop (g + 2) p.1 p.2) = _
    rw [termLoop_exit _ _ _ (by simp), eBind_ok]
    rw [exprLoop_exit _ _ _ (by simp)]
  rw [evaluate_of_parseInput s _ hp]
  rfl

theorem evaluate_first_rparen (s : String) (v : Option ℚ) (r : List Char)
    (h : mkParser s.data = .ok ⟨⟨.RPAREN, v⟩, r⟩) : evaluate s = .ok .undefined := by
  have hp : parseInput s = .ok (.undefined, ⟨⟨.RPAREN, v⟩, r⟩) := by
    show (mkParser s.data >>= fun st => expr (fuelFor s) st) = _
    rw [h, eBind_ok]
    obtain ⟨g, hg⟩ : ∃ g, fuelFor s = (g + 1) + 2 := ⟨fuelFor s - 3, by
      have : fuelFor s = 8 * s.length + 8 := rfl
      omega⟩
    rw [hg]
    rw [expr_unfold, term_unfold]
    rw [factor_fall _ _ (by simp) (by simp) (by simp) (by simp)]
    rw [eBind_ok]
    show (termLoop (g + 1) .undefined ⟨⟨.RPAREN, v⟩, r⟩ >>= fun p => exprLoop (g + 2) p.1 p.2) = _
    rw [termLoop_exit _ _ _ (by simp), eBind_ok]
    rw [exprLoop_exit _ _ _ (by simp)]
  rw [evaluate_of_parseInput s _ hp]
  rfl


/-! The claims. -/

/-- C1: evaluate respects operator precedence: multiplication binds tighter
than addition unless parentheses override it — the parser puts the MUL node
below the PLUS node for the input with no parentheses and above the
parenthesized sum otherwise; in particular evaluate of the text 2 + 3 * 4
returns 14 and evaluate of the text (2 + 3) * 4 returns 20. -/
theorem c1_precedence :
    parseInput "2 + 3 * 4"
      = .ok (.binOp (.num (some 2)) ⟨.PLUS, none⟩
          (.binOp (.num (some 3)) ⟨.MUL, none⟩ (.num (some 4))), ⟨⟨.EOF, none⟩, []⟩) ∧
    evaluate "2 + 3 * 4" = .ok (.num (.fin 14)) ∧
    parseInput "(2 + 3) * 4"
      = .ok (.binOp (.binOp (.num (some 2)) ⟨.PLUS, none⟩ (.num (some 3))) ⟨.MUL, none⟩
          (.num (some 4)), ⟨⟨.EOF, none⟩, []⟩) ∧
    evaluate "(2 + 3) * 4" = .ok (.num (.fin 20)) :=
  ⟨by with_unfolding_all rfl, by with_unfolding_all rfl, by with_unfolding_all rfl,
    by with_unfolding_all rfl⟩

/-- C2: for every chain of same-precedence binary operators (additive chains
at the expr level, multiplicative chains at the term level) the parser builds
the left fold of BinOp over the links, i.e. a left-associative tree in which
each new operator wraps the previously built node as its left child; in
particular evaluate of the text 10 - 2 - 3 returns 5, not 11. -/
theorem c2_left_assoc :
    (∀ (n : ℕ) (ps : List (AddOp × ℕ)),
      parseInput (String.mk (addChain n ps)) = .ok (addChainAST n ps, ⟨⟨.EOF, none⟩, []⟩)) ∧
    (∀ (n : ℕ) (ps : List (MulOp × ℕ)),
      parseInput (String.mk (mulChain n ps)) = .ok (mulChainAST n ps, ⟨⟨.EOF, none⟩, []⟩)) ∧
    parseInput "10 - 2 - 3"
      = .ok (.binOp (.binOp (.num (some 10)) ⟨.MINUS, none⟩ (.num (some 2))) ⟨.MINUS, none⟩
          (.num (some 3)), ⟨⟨.EOF, none⟩, []⟩) ∧
    evaluate "10 - 2 - 3" = .ok (.num (.fin 5)) ∧
    evaluate "10 - 2 - 3" ≠ .ok (.num (.fin 11)) := by
  refine ⟨parseInput_addChain, parseInput_mulChain, by with_unfolding_all rfl,
    by with_unfolding_all rfl, ?_⟩
  intro h
  have h5 : evaluate "10 - 2 - 3" = .ok (.num (.fin 5)) := by with_unfolding_all rfl
  rw [h5] at h
  simp only [Except.ok.injEq, JSVal.num.injEq, JSNum.fin.injEq] at h
  norm_num at h

/-- C3: unary plus and minus parse by right-recursion of factor into nested
UnaryOp nodes (three deep for the text - - - 5) and evaluate as identity and
negation, so evaluate of the text - -5 returns 5 and evaluate of the text
-(2+3) returns -5. -/
theorem c3_unary :
    evaluate "- -5" = .ok (.num (.fin 5)) ∧
    evaluate "-(2+3)" = .ok (.num (.fin (-5))) ∧
    parseInput "- - - 5"
      = .ok (.unaryOp ⟨.MINUS, none⟩ (.unaryOp ⟨.MINUS, none⟩ (.unaryOp ⟨.MINUS, none⟩
          (.num (some 5)))), ⟨⟨.EOF, none⟩, []⟩) ∧
    evaluate "- - - 5" = .ok (.num (.fin (-5))) :=
  ⟨by with_unfolding_all rfl, by with_unfolding_all rfl, by with_unfolding_all rfl,
    by with_unfolding_all rfl⟩

/-- C4 counterexample: the claim says evaluate of the text 1 + fails with
UnexpectedToken rather than returning a value; in fact it returns the value
NaN and no error: factor silently returns no node for the missing operand. -/
theorem c4_counterexample :
    evaluate "1 +" = .ok (.num .nan) ∧ evaluate "1 +" ≠ .error .unexpectedToken := by
  refine ⟨by with_unfolding_all rfl, ?_⟩
  intro h
  have h2 : evaluate "1 +" = .ok (.num .nan) := by with_unfolding_all rfl
  rw [h2] at h
  exact Except.noConfusion h

/-- C4 amended: evaluate of the text (1 + 2 (unmatched parenthesis) fails with
UnexpectedToken, but evaluate of the text 1 + (missing operand) does not fail:
factor falls through on the END token and returns no node, and evaluation of
the resulting BinOp with an absent right child yields the number NaN. -/
theorem c4_amended :
    evaluate "(1 + 2" = .error .unexpectedToken ∧ evaluate "1 +" = .ok (.num .nan) :=
  ⟨by with_unfolding_all rfl, by with_unfolding_all rfl⟩

/-- C5: the parser never verifies that the token stream is exhausted after
expr completes: on the text 1 + 1 ) the parse succeeds leaving the trailing
RPAREN as the final unconsumed lookahead, and evaluate returns the value 2 of
the leading expression, silently ignoring the trailing token. -/
theorem c5_trailing :
    parseInput "1 + 1 )" = .ok (.binOp (.num (some 1)) ⟨.PLUS, none⟩ (.num (some 1)),
      ⟨⟨.RPAREN, none⟩, []⟩) ∧
    evaluate "1 + 1 )" = .ok (.num (.fin 2)) :=
  ⟨by with_unfolding_all rfl, by with_unfolding_all rfl⟩

/-- C6: whenever the scanner reaches a character outside the set of digits,
space and the six symbols (that is, a nextToken call whose space skipping ends
on such a character), it fails with InvalidCharacter; in particular evaluate
of the text 2 & 3 fails with InvalidCharacter. -/
theorem c6_invalid_character :
    (∀ (pre : List Char) (c : Char) (rest : List Char),
      (∀ x ∈ pre, x = ' ') → c ≠ ' ' → ¬validStart c →
      nextToken (pre ++ c :: rest) = .error .invalidCharacter) ∧
    evaluate "2 & 3" = .error .invalidCharacter :=
  ⟨nextToken_invalid, by with_unfolding_all rfl⟩

/-- C6 witness: the general part of the claim applied to the ampersand
character as the whole input. -/
theorem c6_witness : nextToken ['&'] = .error .invalidCharacter :=
  c6_invalid_character.1 [] '&' [] (by simp) (by decide) (by simp [validStart])

/-- C7: division is exact rational division, not integer truncation: evaluate
of the text 7 / 2 returns the number 7 / 2, which is 3.5 and not 3. -/
theorem c7_division :
    evaluate "7 / 2" = .ok (.num (.fin (7 / 2))) ∧
    ((7 : ℚ) / 2) = 3.5 ∧ ((7 : ℚ) / 2) ≠ 3 :=
  ⟨by with_unfolding_all rfl, by norm_num, by norm_num⟩

/-- C8: evaluation never produces an error: for every input whose lexing and
parsing succeed, evaluate returns the value of the visit fold (visit is a
total function, with no error case and no special-casing of division by
zero); in particular evaluate of the text 1 / 0 does not fail but returns the
host division result, positive infinity. -/
theorem c8_total_evaluation :
    (∀ (s : String) (p : AST × ParserState),
      parseInput s = .ok p → evaluate s = .ok (visit p.1)) ∧
    evaluate "1 / 0" = .ok (.num .posInf) :=
  ⟨evaluate_of_parseInput, by with_unfolding_all rfl⟩

/-- C8 witness: the general part of the claim applied to the input 1 / 0 and
its concrete parse result. -/
theorem c8_witness :
    evaluate "1 / 0" = .ok (visit (.binOp (.num (some 1)) ⟨.DIVIDE, none⟩ (.num (some 0)))) :=
  c8_total_evaluation.1 "1 / 0"
    (.binOp (.num (some 1)) ⟨.DIVIDE, none⟩ (.num (some 0)), ⟨⟨.EOF, none⟩, []⟩)
    (by with_unfolding_all rfl)

/-- C9: round-trip: for every finite tree built only from non-negative
integer literals and the binary operators plus, minus and mul (no division),
evaluating a textual rendering of the tree yields exactly the number obtained
by directly folding the tree with the corresponding arithmetic operations. -/
theorem c9_round_trip (t : RTree) :
    evaluate (String.mk t.render) = .ok (.num (.fin t.fold)) := by
  rw [evaluate_of_parseInput (String.mk t.render) _ (parseInput_render t)]
  show Except.ok (visit t.ast) = _
  rw [visit_ast]

/-- C10 counterexample: the claim says that on any input whose first token is
not PLUS, MINUS, INTEGER or LPAREN, evaluate neither raises an error nor
returns a number; but on the input consisting of one asterisk, whose first
token is MUL, evaluate returns the number NaN (the term loop consumes the
operator and multiplies two absent operands). -/
theorem c10_counterexample :
    mkParser ("*".data) = .ok ⟨⟨.MUL, none⟩, []⟩ ∧
    evaluate "*" = .ok (.num .nan) :=
  ⟨by with_unfolding_all rfl, by with_unfolding_all rfl⟩

/-- C10 amended: factor falls through all its cases and returns no node
whenever the lookahead is none of PLUS, MINUS, INTEGER, LPAREN; on empty
input (first token END) and on any input whose first token is RPAREN this
absent node is the whole parse result and evaluate returns undefined, neither
an error nor a number; but when the first token is MUL or DIVIDE the term
loop still consumes it and arithmetic over the absent operands makes evaluate
return the number NaN. -/
theorem c10_amended :
    (∀ (fuel : ℕ) (st : ParserState),
      st.lookahead.type ≠ .PLUS → st.lookahead.type ≠ .MINUS →
      st.lookahead.type ≠ .INTEGER → st.lookahead.type ≠ .LPAREN →
      factor (fuel + 1) st = .ok (.undefined, st)) ∧
    (∀ (s : String) (v : Option ℚ) (r : List Char),
      mkParser s.data = .ok ⟨⟨.EOF, v⟩, r⟩ → evaluate s = .ok .undefined) ∧
    (∀ (s : String) (v : Option ℚ) (r : List Char),
      mkParser s.data = .ok ⟨⟨.RPAREN, v⟩, r⟩ → evaluate s = .ok .undefined) ∧
    evaluate "" = .ok .undefined ∧
    evaluate ")" = .ok .undefined ∧
    evaluate "*" = .ok (.num .nan) ∧
    evaluate "/" = .ok (.num .nan) :=
  ⟨factor_fall, evaluate_first_eof, evaluate_first_rparen, by with_unfolding_all rfl,
    by with_unfolding_all rfl, by with_unfolding_all rfl, by with_unfolding_all rfl⟩

/-- C10 witness: the general parts of the amended claim applied to the empty
input and to the parser state primed on the END token. -/
theorem c10_witness :
    evaluate "" = .ok .undefined ∧
    factor (0 + 1) ⟨⟨.EOF, none⟩, []⟩ = .ok (.undefined, ⟨⟨.EOF, none⟩, []⟩) :=
  ⟨c10_amended.2.1 "" none [] (by with_unfolding_all rfl),
    c10_amended.1 0 ⟨⟨.EOF, none⟩, []⟩ (by decide) (by decide) (by decide) (by decide)⟩

end Tascal
